import Mathlib

/-!
Verification of the `markup` repository (lexer → parser → AST → HTML transformer).

The source is embedded shallowly: the input is a byte buffer, modelled as a
`List Nat` of byte values; Rust's `u8 as char` conversion maps a byte to the
Unicode scalar with the same value (Latin-1), so character classification is
done directly on the byte value.  Fallible code returns explicit result types;
a Rust `panic!` / failed `expect` / out-of-bounds index is modelled by a
distinguished `panic` value, and fuel exhaustion of the fuelled recursions by
a distinguished `fuelOut` value (the fuel supplied by the entry points is
proved sufficient where a claim needs it).
-/

namespace Markup

/-! ## Byte / character classification

Rust's `char::is_whitespace`, `char::is_numeric` and `char::is_alphabetic`
restricted to the scalars U+0000..U+00FF that a byte can denote:
whitespace is 09-0D, 20, 85 (NEL), A0 (NBSP); numeric adds the superscripts
B2 B3 B9 and vulgar fractions BC BD BE to the ASCII digits; alphabetic is
A-Z, a-z, AA (ª), B5 (µ), BA (º) and C0-FF except D7 (×) and F7 (÷). -/

def isRustWhitespace (b : Nat) : Bool :=
  b = 9 || b = 10 || b = 11 || b = 12 || b = 13 || b = 32 || b = 133 || b = 160

def isRustNumeric (b : Nat) : Bool :=
  (48 ≤ b && b ≤ 57) || b = 178 || b = 179 || b = 185 || b = 188 || b = 189 || b = 190

def isRustAlphabetic (b : Nat) : Bool :=
  (65 ≤ b && b ≤ 90) || (97 ≤ b && b ≤ 122) || b = 170 || b = 181 || b = 186 ||
    (192 ≤ b && b ≤ 255 && b != 215 && b != 247)

/-- The file-local `fn is_alphabetic` of `lexer.rs`: identifier-continuation
characters (`c.is_alphabetic() || c == '_' || c == '-' || c.is_numeric()`). -/
def isIdentContinuation (b : Nat) : Bool :=
  isRustAlphabetic b || b = 95 || b = 45 || isRustNumeric b

def isAsciiDigit (b : Nat) : Bool := 48 ≤ b && b ≤ 57

/-! ## UTF-8 validity

`std::str::from_utf8` succeeds exactly on well-formed UTF-8 (RFC 3629):
used to model the `.expect("should be utf8")` calls of the lexer. -/

def isUtf8Cont (b : Nat) : Bool := 128 ≤ b && b ≤ 191

def utf8Valid : List Nat → Bool
  | [] => true
  | b :: rest =>
    if b ≤ 127 then utf8Valid rest
    else if 194 ≤ b && b ≤ 223 then
      match rest with
      | c :: r => isUtf8Cont c && utf8Valid r
      | [] => false
    else if b = 224 then
      match rest with
      | c :: d :: r => (160 ≤ c && c ≤ 191) && isUtf8Cont d && utf8Valid r
      | _ => false
    else if 225 ≤ b && b ≤ 236 then
      match rest with
      | c :: d :: r => isUtf8Cont c && isUtf8Cont d && utf8Valid r
      | _ => false
    else if b = 237 then
      match rest with
      | c :: d :: r => (128 ≤ c && c ≤ 159) && isUtf8Cont d && utf8Valid r
      | _ => false
    else if 238 ≤ b && b ≤ 239 then
      match rest with
      | c :: d :: r => isUtf8Cont c && isUtf8Cont d && utf8Valid r
      | _ => false
    else if b = 240 then
      match rest with
      | c :: d :: e :: r => (144 ≤ c && c ≤ 191) && isUtf8Cont d && isUtf8Cont e && utf8Valid r
      | _ => false
    else if 241 ≤ b && b ≤ 243 then
      match rest with
      | c :: d :: e :: r => isUtf8Cont c && isUtf8Cont d && isUtf8Cont e && utf8Valid r
      | _ => false
    else if b = 244 then
      match rest with
      | c :: d :: e :: r => (128 ≤ c && c ≤ 143) && isUtf8Cont d && isUtf8Cont e && utf8Valid r
      | _ => false
    else false

/-! ## Tokens and lexing errors (`lexer.rs`) -/

/-- `Token` of `lexer.rs`; text payloads are the borrowed byte slices. -/
inductive Token where
  | identifier (s : List Nat)
  | str (s : List Nat)
  | number (n : Nat)
  | leftParen
  | rightParen
  | leftBracket
  | rightBracket
  | leftBrace
  | rightBrace
  | doubleDot
  | dot
  | comma
  | colon
  | eof
deriving DecidableEq, Repr

/-- `LexingError` of `lexer.rs`. -/
inductive LexingError where
  | unrecognizedCharacter (character : Nat) (position : Nat)
  | unclosedStringLiteral (start : Nat) (stop : Nat)
deriving DecidableEq, Repr

/-- Result of a lexing step or run: `panic` models a Rust panic
(a failed `expect` or arithmetic overflow), `fuelOut` is the fuel artifact. -/
inductive LexResult (α : Type) where
  | ok (a : α)
  | err (e : LexingError)
  | panic
  | fuelOut
deriving DecidableEq, Repr

/-! ## The scanning helpers

The cursor-advancing `while` loops of `lexer.rs` are rendered as run lengths
over the remaining suffix: `skip_whitespace`, the string-body loop, the
identifier loop and the number loop each advance the cursor by the length of
the maximal run of bytes satisfying the loop condition. -/

def wsRun : List Nat → Nat
  | [] => 0
  | b :: r => if isRustWhitespace b then wsRun r + 1 else 0

def notQuoteRun : List Nat → Nat
  | [] => 0
  | b :: r => if b = 34 then 0 else notQuoteRun r + 1

def identRun : List Nat → Nat
  | [] => 0
  | b :: r => if isIdentContinuation b then identRun r + 1 else 0

def numRun : List Nat → Nat
  | [] => 0
  | b :: r => if isRustNumeric b then numRun r + 1 else 0

/-- `fn skip_whitespace`. -/
def skipWhitespace (src : List Nat) (c : Nat) : Nat := c + wsRun (src.drop c)

/-- The byte slice `&source[a..b]`. -/
def slice (src : List Nat) (a b : Nat) : List Nat := (src.drop a).take (b - a)

/-- Decimal value of a digit run (what `str::parse::<u32>` computes). -/
def natOfDigits (l : List Nat) : Nat := l.foldl (fun a b => a * 10 + (b - 48)) 0

/-- `fn string`, entered with the cursor just past the opening quote at
`start`; scans to the closing quote or the end of input. -/
def scanString (src : List Nat) (start : Nat) : LexResult (Token × Nat) :=
  let e := start + notQuoteRun (src.drop start)
  if src.length ≤ e then
    .err (.unclosedStringLiteral (start - 1) e)
  else
    let inner := slice src start e
    -- `std::str::from_utf8(..).expect("should be utf8")`
    if utf8Valid inner then .ok (.str inner, e + 1) else .panic

/-- `fn identifier`, entered with the cursor just past the first byte. -/
def scanIdent (src : List Nat) (c1 : Nat) : LexResult (Token × Nat) :=
  let e := c1 + identRun (src.drop c1)
  let lexeme := slice src (c1 - 1) e
  if utf8Valid lexeme then .ok (.identifier lexeme, e) else .panic

/-- `fn number`, entered with the cursor just past the first byte.
`from_utf8(..).expect` followed by `parse::<u32>().unwrap_or_else(panic)`
succeeds exactly when the lexeme is all ASCII digits (the non-ASCII
"numeric" bytes B2 B3 B9 BC BD BE are UTF-8 continuation bytes, so any run
containing one is rejected by `from_utf8`) and the value fits in a `u32`. -/
def scanNumber (src : List Nat) (c1 : Nat) : LexResult (Token × Nat) :=
  let e := c1 + numRun (src.drop c1)
  let lexeme := slice src (c1 - 1) e
  if lexeme.all isAsciiDigit && natOfDigits lexeme < 4294967296 then
    .ok (.number (natOfDigits lexeme), e)
  else .panic

/-- `fn scan_token`, a `match` on the character read by `advance`: `advance`
at the end of input yields `'\0'` without moving the cursor; otherwise it
yields byte `src[c]` and moves to `c + 1`.  The guard arms
`_ if c.is_numeric()` and `_ if c.is_alphabetic()` and the final catch-all
become the conditions of the default arm. -/
def scanToken (src : List Nat) (c : Nat) : LexResult (Token × Nat) :=
  match src[c]? with
  | none => .ok (.eof, c)
  | some b =>
    match b with
    | 40 => .ok (.leftParen, c + 1)
    | 41 => .ok (.rightParen, c + 1)
    | 91 => .ok (.leftBracket, c + 1)
    | 93 => .ok (.rightBracket, c + 1)
    | 123 => .ok (.leftBrace, c + 1)
    | 125 => .ok (.rightBrace, c + 1)
    | 44 => .ok (.comma, c + 1)
    | 46 =>
      -- `match_char('.')`
      if src[c + 1]? = some 46 then .ok (.doubleDot, c + 2) else .ok (.dot, c + 1)
    | 58 => .ok (.colon, c + 1)
    | 0 => .ok (.eof, c + 1)
    | 34 => scanString src (c + 1)
    | b =>
      if isRustNumeric b then scanNumber src (c + 1)
      else if isRustAlphabetic b then scanIdent src (c + 1)
      else .err (.unrecognizedCharacter b (c + 1))

/-- The loop of `fn scan_tokens`: while not at the end, skip whitespace, scan
one token and push it; at the end, append a final `EOF` token unless the last
scanned token is already `EOF`.  Each iteration strictly advances the cursor,
so fuel `src.length + 1` is enough (proved below). -/
def scanA (src : List Nat) (fuel : Nat) (c : Nat) (acc : List Token) :
    LexResult (List Token) :=
  match fuel with
  | 0 => .fuelOut
  | fuel + 1 =>
    if c < src.length then
      let c1 := skipWhitespace src c
      match scanToken src c1 with
      | .ok (t, c2) => scanA src fuel c2 (acc ++ [t])
      | .err e => .err e
      | .panic => .panic
      | .fuelOut => .fuelOut
    else
      if acc.getLast? = some .eof then .ok acc else .ok (acc ++ [.eof])

/-- `fn scan_tokens`. -/
def scanTokens (src : List Nat) : LexResult (List Token) :=
  scanA src (src.length + 1) 0 []

/-! ## The AST (`ast.rs`) -/

/-- `Literal` of `ast.rs`. -/
inductive Literal where
  | number (n : Nat)
  | str (s : List Nat)
  | list (ls : List Literal)
  | range (start : Nat) (stop : Option Nat)

/-- `Attribute` of `ast.rs`. -/
structure Attribute where
  name : List Nat
  value : Literal

/-- `Node` of `ast.rs`; the `Tag` struct is inlined into the `tag`
constructor as its three fields (name, attributes, children). -/
inductive Node where
  | str (s : List Nat)
  | tag (name : List Nat) (attributes : List Attribute) (children : List Node)

/-- Decimal digits of `n` (little helper for the `Display` rendering),
fuelled so that it reduces definitionally. -/
def natDecAux : Nat → Nat → List Nat
  | 0, _ => []
  | f + 1, n => if n < 10 then [48 + n] else natDecAux f (n / 10) ++ [48 + n % 10]

def natDec (n : Nat) : List Nat := natDecAux (n + 1) n

mutual

/-- The `impl Display for Literal` of `ast.rs`, as the byte string it writes.
`litDisplayJoin l ls` is the loop body writing `l , ls...` with commas
between consecutive elements.  Rendering `List(ls)` computes the loop bound
`ls.len() - 1` on `usize`: for the empty list this underflows (debug) or
yields an out-of-bounds index (release) — a panic either way, modelled as
`none`. -/
def litDisplay : Literal → Option (List Nat)
  | .number n => some (natDec n)
  | .str s => some s
  | .range a b =>
    -- `write!(f, "{start}..{}", end.map_or(String(""), Number))`
    some (natDec a ++ [46, 46] ++ (match b with | some e => natDec e | none => []))
  | .list ls =>
    match ls with
    | [] => none
    | l :: r => (litDisplayJoin l r).map (fun s => 91 :: (s ++ [93]))
termination_by l => sizeOf l

def litDisplayJoin : Literal → List Literal → Option (List Nat)
  | l, [] => litDisplay l
  | l, l2 :: r => do
    let a ← litDisplay l
    let b ← litDisplayJoin l2 r
    some (a ++ 44 :: b)
termination_by l ls => sizeOf l + sizeOf ls

end

/-! ## The parser (`parser.rs`) -/

/-- `ParsingError` of `parser.rs`; `lexing` is the `#[from] LexingError`
wrapper.  `at` fields hold the token index `self.current`. -/
inductive ParsingError where
  | unrecognizedCharacter (character : Nat) (position : Nat)
  | unclosedStringLiteral (start : Nat) (stop : Nat)
  | unexpectedToken (i : Nat)
  | expectedToken (i : Nat) (expected : Token) (got : Token)
  | lexing (e : LexingError)
deriving DecidableEq, Repr

/-- Outcome of one parser production.  Both `ok` and `err` carry the value of
`self.current` afterwards: the Rust methods mutate the cursor before failing,
and the `if let Ok(..)` callers keep parsing from the mutated cursor, so the
cursor reached at the failure point is observable.  `panic` models an
out-of-bounds `self.tokens[..]` index, `fuelOut` the fuel artifact. -/
inductive PRes (α : Type) where
  | ok (a : α) (cur : Nat)
  | err (e : ParsingError) (cur : Nat)
  | panic
  | fuelOut

def PRes.bind {α β : Type} : PRes α → (α → Nat → PRes β) → PRes β
  | .ok a c, f => f a c
  | .err e c, _ => .err e c
  | .panic, _ => .panic
  | .fuelOut, _ => .fuelOut

/-- `fn consume`: if the current token equals the expected token, advance,
otherwise fail (without advancing) naming both tokens. -/
def consume (tks : List Token) (c : Nat) (t : Token) : PRes Unit :=
  match tks[c]? with
  | none => .panic
  | some u => if u = t then .ok () (c + 1) else .err (.expectedToken c t u) c

/-! The recursive-descent productions.  Each `fn` of `parser.rs` becomes a
fuelled function (the fuel only mediates Lean's termination; the entry point
supplies fuel proved sufficient below).  The two `while` loops over children /
comma-separated tails become the recursive helpers `tagChildren`, `attrRest`
and `listRest`. -/

mutual

/-- `fn node`. -/
def node (tks : List Token) (c : Nat) : Nat → PRes Node
  | 0 => .fuelOut
  | f + 1 =>
    match tks[c]? with
    | none => .panic
    | some (.str s) => .ok (.str s) (c + 1)
    | some (.identifier _) => tag tks c f
    | some _ => .err (.unexpectedToken c) c

/-- `fn tag`. -/
def tag (tks : List Token) (c : Nat) : Nat → PRes Node
  | 0 => .fuelOut
  | f + 1 =>
    match tks[c]? with
    | none => .panic
    | some (.identifier name) =>
      -- `if let Token::LeftParen = self.tokens[self.current]`
      (match tks[c + 1]? with
       | none => .panic
       | some .leftParen =>
         (attributes tks (c + 1) f).bind fun attrs c2 =>
           (consume tks c2 .leftBrace).bind fun _ c3 =>
             (tagChildren tks c3 f).bind fun children c4 =>
               (consume tks c4 .rightBrace).bind fun _ c5 =>
                 .ok (.tag name attrs children) c5
       | some _ =>
         (consume tks (c + 1) .leftBrace).bind fun _ c3 =>
           (tagChildren tks c3 f).bind fun children c4 =>
             (consume tks c4 .rightBrace).bind fun _ c5 =>
               .ok (.tag name [] children) c5)
    | some _ => .err (.unexpectedToken c) c

/-- The `while self.tokens[self.current] != Token::RightBrace` loop of
`fn tag`, collecting child nodes. -/
def tagChildren (tks : List Token) (c : Nat) : Nat → PRes (List Node)
  | 0 => .fuelOut
  | f + 1 =>
    match tks[c]? with
    | none => .panic
    | some .rightBrace => .ok [] c
    | some _ =>
      (node tks c f).bind fun n c2 =>
        (tagChildren tks c2 f).bind fun ns c3 =>
          .ok (n :: ns) c3

/-- `fn attributes`.  The optional first attribute is parsed with
`if let Ok(attr) = self.attribute()`: its error is discarded but the cursor
movement it performed is kept. -/
def attributes (tks : List Token) (c : Nat) : Nat → PRes (List Attribute)
  | 0 => .fuelOut
  | f + 1 =>
    (consume tks c .leftParen).bind fun _ c1 =>
      match attrib tks c1 f with
      | .ok a c2 =>
        (attrRest tks c2 f).bind fun rest c3 =>
          (consume tks c3 .rightParen).bind fun _ c4 => .ok (a :: rest) c4
      | .err _ c2 =>
        (attrRest tks c2 f).bind fun rest c3 =>
          (consume tks c3 .rightParen).bind fun _ c4 => .ok rest c4
      | .panic => .panic
      | .fuelOut => .fuelOut

/-- The `while self.tokens[self.current] == Token::Comma` loop of
`fn attributes`. -/
def attrRest (tks : List Token) (c : Nat) : Nat → PRes (List Attribute)
  | 0 => .fuelOut
  | f + 1 =>
    match tks[c]? with
    | none => .panic
    | some .comma =>
      (attrib tks (c + 1) f).bind fun a c2 =>
        (attrRest tks c2 f).bind fun rest c3 => .ok (a :: rest) c3
    | some _ => .ok [] c

/-- `fn attribute` (named `attrib` here: `attribute` is a Lean keyword). -/
def attrib (tks : List Token) (c : Nat) : Nat → PRes Attribute
  | 0 => .fuelOut
  | f + 1 =>
    match tks[c]? with
    | none => .panic
    | some (.identifier name) =>
      (consume tks (c + 1) .colon).bind fun _ c2 =>
        match tks[c2]? with
        | none => .panic
        | some (.number n) =>
          -- `if self.peek_next() == Token::DoubleDot`
          (match tks[c2 + 1]? with
           | none => .panic
           | some .doubleDot =>
             (range tks c2 f).bind fun v c3 => .ok ⟨name, v⟩ c3
           | some _ => .ok ⟨name, .number n⟩ (c2 + 1))
        | some (.str s) => .ok ⟨name, .str s⟩ (c2 + 1)
        | some .leftBracket =>
          (list tks c2 f).bind fun v c3 => .ok ⟨name, v⟩ c3
        | some _ => .err (.unexpectedToken c2) c2
    | some _ => .err (.unexpectedToken c) c

/-- `fn list`.  Like `fn attributes`, the optional first element is parsed
with `if let Ok(l) = self.literal()`, discarding the error but keeping the
cursor movement. -/
def list (tks : List Token) (c : Nat) : Nat → PRes Literal
  | 0 => .fuelOut
  | f + 1 =>
    (consume tks c .leftBracket).bind fun _ c1 =>
      match literal tks c1 f with
      | .ok l c2 =>
        (listRest tks c2 f).bind fun rest c3 =>
          (consume tks c3 .rightBracket).bind fun _ c4 => .ok (.list (l :: rest)) c4
      | .err _ c2 =>
        (listRest tks c2 f).bind fun rest c3 =>
          (consume tks c3 .rightBracket).bind fun _ c4 => .ok (.list rest) c4
      | .panic => .panic
      | .fuelOut => .fuelOut

/-- The `while self.tokens[self.current] == Token::Comma` loop of `fn list`. -/
def listRest (tks : List Token) (c : Nat) : Nat → PRes (List Literal)
  | 0 => .fuelOut
  | f + 1 =>
    match tks[c]? with
    | none => .panic
    | some .comma =>
      (literal tks (c + 1) f).bind fun l c2 =>
        (listRest tks c2 f).bind fun rest c3 => .ok (l :: rest) c3
    | some _ => .ok [] c

/-- `fn range`. -/
def range (tks : List Token) (c : Nat) : Nat → PRes Literal
  | 0 => .fuelOut
  | _ + 1 =>
    match tks[c]? with
    | none => .panic
    | some (.number start) =>
      (consume tks (c + 1) .doubleDot).bind fun _ c2 =>
        match tks[c2]? with
        | none => .panic
        | some (.number e) => .ok (.range start (some e)) (c2 + 1)
        | some _ => .ok (.range start none) c2
    | some _ => .err (.unexpectedToken c) c

/-- `fn literal`. -/
def literal (tks : List Token) (c : Nat) : Nat → PRes Literal
  | 0 => .fuelOut
  | f + 1 =>
    match tks[c]? with
    | none => .panic
    | some (.number n) =>
      (match tks[c + 1]? with
       | none => .panic
       | some .doubleDot => range tks c f
       | some _ => .ok (.number n) (c + 1))
    | some (.str s) => .ok (.str s) (c + 1)
    | some .leftBracket => list tks c f
    | some _ => .err (.unexpectedToken c) c

/-- The `while !self.is_at_end()` loop of `fn parse`; `is_at_end` reads the
current token and compares it with `EOF`. -/
def parseLoop (tks : List Token) (c : Nat) : Nat → PRes (List Node)
  | 0 => .fuelOut
  | f + 1 =>
    match tks[c]? with
    | none => .panic
    | some .eof => .ok [] c
    | some _ =>
      (node tks c f).bind fun n c2 =>
        (parseLoop tks c2 f).bind fun ns c3 => .ok (n :: ns) c3

end

/-- Overall outcome of `fn parse`. -/
inductive ParseOutcome where
  | ok (nodes : List Node)
  | err (e : ParsingError)
  | panic
  | fuelOut

/-- Running the parser on a token sequence (cursor starts at 0).  The fuel
`5 * tks.length + 8` is proved sufficient for EOF-terminated sequences. -/
def parseTokens (tks : List Token) : ParseOutcome :=
  match parseLoop tks 0 (5 * tks.length + 8) with
  | .ok ns _ => .ok ns
  | .err e _ => .err e
  | .panic => .panic
  | .fuelOut => .fuelOut

/-- `fn parse`: scan, propagating a lexing failure via the
`ParsingError::LexingError` wrapper, then run the productions. -/
def parse (src : List Nat) : ParseOutcome :=
  match scanTokens src with
  | .ok tks => parseTokens tks
  | .err e => .err (.lexing e)
  | .panic => .panic
  | .fuelOut => .fuelOut

/-! ## The HTML transformer (`plugin.rs`)

The byte string `"code-block"` and the fixed HTML fragments, written out as
byte values (ASCII). -/

/-- ASCII bytes of `"code-block"`. -/
def codeBlockName : List Nat := [99, 111, 100, 101, 45, 98, 108, 111, 99, 107]

/-- ASCII bytes of `"<pre><code>"`. -/
def preCodeOpen : List Nat := [60, 112, 114, 101, 62, 60, 99, 111, 100, 101, 62]

/-- ASCII bytes of `"</code></pre>"`. -/
def preCodeClose : List Nat := [60, 47, 99, 111, 100, 101, 62, 60, 47, 112, 114, 101, 62]

/-- Split a byte string at every newline (10); `n` separators yield `n + 1`
pieces. -/
def splitNl : List Nat → List (List Nat)
  | [] => [[]]
  | b :: r =>
    if b = 10 then [] :: splitNl r
    else
      match splitNl r with
      | [] => [[b]]
      | p :: ps => (b :: p) :: ps

/-- Rust `str::lines` (newline split; the piece after a trailing newline is
not a line; the empty string has no lines). -/
def rustLines (s : List Nat) : List (List Nat) :=
  if s = [] then []
  else if s.getLast? = some 10 then (splitNl s).dropLast
  else splitNl s

/-- Longest common prefix of two byte strings. -/
def commonPrefix : List Nat → List Nat → List Nat
  | a :: as, b :: bs => if a = b then a :: commonPrefix as bs else []
  | _, _ => []

/-- Modelled from the spec: the external `textwrap::dedent` used by
`plugin.rs` is not part of this repository; following the spec's words it
removes the common leading whitespace of the lines. The common whitespace
prefix is computed over the lines that contain a non-whitespace character,
that prefix is stripped from every such line, whitespace-only lines become
empty, and the trailing-newline shape of the input is preserved. -/
def dedent (s : List Nat) : List Nat :=
  let ls := rustLines s
  let contentLines := ls.filter (fun l => !l.all isRustWhitespace)
  let p :=
    match contentLines with
    | [] => []
    | l :: rest => rest.foldl commonPrefix (l.takeWhile isRustWhitespace)
  let body := ls.map (fun l => if l.all isRustWhitespace then [] else l.drop p.length)
  (body.intersperse [10]).flatten ++ (if s.getLast? = some 10 then [10] else [])

mutual

/-- `fn transform_node` of `plugin.rs`: a string node renders verbatim; a tag
named `code-block` wraps the dedented transform of its children in
`<pre><code>…</code></pre>`; any other tag hits
`panic!("Only `code-block` is supported for now")`, modelled as `none`. -/
def transformNode : Node → Option (List Nat)
  | .str s => some s
  | .tag name _attrs children =>
    if name = codeBlockName then
      (transformList children).map
        (fun inner => preCodeOpen ++ dedent inner ++ preCodeClose)
    else none

/-- `HtmlTransformer::transform`: concatenate the transforms of the nodes in
order. -/
def transformList : List Node → Option (List Nat)
  | [] => some []
  | n :: r => do
    let a ← transformNode n
    let b ← transformList r
    some (a ++ b)

end

/-! ## Spec-side reference definitions -/

mutual

/-- The reference rendering of `Literal` as the spec words it: `Number` as
its decimal value, `String` as itself, `Range` as `start..end` or `start..`,
`List` as a comma-joined bracketed sequence of its element renderings
(the empty list giving `[]`).  Total, for comparison with `litDisplay`. -/
def refDisplay : Literal → List Nat
  | .number n => natDec n
  | .str s => s
  | .range a b => natDec a ++ [46, 46] ++ (match b with | some e => natDec e | none => [])
  | .list ls => 91 :: (refJoin ls ++ [93])
termination_by l => sizeOf l

/-- Comma-joined renderings of a list of literals. -/
def refJoin : List Literal → List Nat
  | [] => []
  | [l] => refDisplay l
  | l :: l2 :: r => refDisplay l ++ 44 :: refJoin (l2 :: r)
termination_by ls => sizeOf ls

end

mutual

/-- No `List` literal anywhere inside is empty. -/
def noEmptyList : Literal → Bool
  | .number _ => true
  | .str _ => true
  | .range _ _ => true
  | .list ls => !ls.isEmpty && noEmptyListAll ls
termination_by l => sizeOf l

/-- `noEmptyList` on every element. -/
def noEmptyListAll : List Literal → Bool
  | [] => true
  | l :: r => noEmptyList l && noEmptyListAll r
termination_by ls => sizeOf ls

end

/-- The recognized single-character punctuation bytes `( ) [ ] { } , . :`. -/
def isRecognizedPunct (b : Nat) : Bool :=
  b = 40 || b = 41 || b = 91 || b = 93 || b = 123 || b = 125 || b = 44 || b = 46 || b = 58

/-! ## Well-behavedness predicates for parser results

`panic` models an out-of-bounds token index; a result is well behaved when it
is `ok` or `err` with its cursor inside the token list. -/

def Good {α : Type} (r : PRes α) (c len : Nat) : Prop :=
  match r with
  | .ok _ c2 => c ≤ c2 ∧ c2 < len
  | .err _ c2 => c ≤ c2 ∧ c2 < len
  | .panic => False
  | .fuelOut => False

def GoodS {α : Type} (r : PRes α) (c len : Nat) : Prop :=
  match r with
  | .ok _ c2 => c < c2 ∧ c2 < len
  | .err _ c2 => c ≤ c2 ∧ c2 < len
  | .panic => False
  | .fuelOut => False

/-- All productions behave well at cursor `c`: enough fuel of the stated
size makes them return `ok` or `err` (never `panic` or `fuelOut`) with the
cursor kept inside the token list. -/
def AllGood (tks : List Token) (c : Nat) : Prop :=
  (∀ F, 5 * (tks.length - c) + 2 ≤ F → GoodS (range tks c F) c tks.length) ∧
  (∀ F, 5 * (tks.length - c) + 3 ≤ F → GoodS (list tks c F) c tks.length) ∧
  (∀ F, 5 * (tks.length - c) + 5 ≤ F → GoodS (literal tks c F) c tks.length) ∧
  (∀ F, 5 * (tks.length - c) + 7 ≤ F → Good (listRest tks c F) c tks.length) ∧
  (∀ F, 5 * (tks.length - c) + 4 ≤ F → GoodS (attrib tks c F) c tks.length) ∧
  (∀ F, 5 * (tks.length - c) + 7 ≤ F → Good (attrRest tks c F) c tks.length) ∧
  (∀ F, 5 * (tks.length - c) + 7 ≤ F → GoodS (attributes tks c F) c tks.length) ∧
  (∀ F, 5 * (tks.length - c) + 5 ≤ F → GoodS (tag tks c F) c tks.length) ∧
  (∀ F, 5 * (tks.length - c) + 6 ≤ F → GoodS (node tks c F) c tks.length) ∧
  (∀ F, 5 * (tks.length - c) + 7 ≤ F → Good (tagChildren tks c F) c tks.length) ∧
  (∀ F, 5 * (tks.length - c) + 7 ≤ F → Good (parseLoop tks c F) c tks.length)

/-! ## Concrete inputs used by the claims (ASCII byte values) -/

/-- Bytes of `div { "x" ` (tag body reaching end of input before `}`). -/
def dInput : List Nat := [100, 105, 118, 32, 123, 32, 34, 120, 34, 32]

/-- Bytes of `div { div {"item1"} div {"item2"} }`. -/
def divSrc : List Nat :=
  [100, 105, 118, 32, 123, 32, 100, 105, 118, 32, 123, 34, 105, 116, 101, 109,
   49, 34, 125, 32, 100, 105, 118, 32, 123, 34, 105, 116, 101, 109, 50, 34,
   125, 32, 125]

/-- The AST of `divSrc`: `div` containing two `div` children with string
contents `item1` and `item2`. -/
def divAst : List Node :=
  [.tag [100, 105, 118] []
    [.tag [100, 105, 118] [] [.str [105, 116, 101, 109, 49]],
     .tag [100, 105, 118] [] [.str [105, 116, 101, 109, 50]]]]

/-- Bytes of `tag(name:) {}` (an attribute name and colon with no value). -/
def tagNameSrc : List Nat :=
  [116, 97, 103, 40, 110, 97, 109, 101, 58, 41, 32, 123, 125]

/-- Bytes of `tag(a: 1, name:) {}` (the broken attribute is after a comma). -/
def tagA1Src : List Nat :=
  [116, 97, 103, 40, 97, 58, 32, 49, 44, 32, 110, 97, 109, 101, 58, 41, 32,
   123, 125]

/-- Bytes of `"unclosed string` (opening quote never closed). -/
def unclosedSrc : List Nat :=
  [34, 117, 110, 99, 108, 111, 115, 101, 100, 32, 115, 116, 114, 105, 110, 103]

/-! ## Lemmas about the lexer -/

theorem wsRun_le (l : List Nat) : wsRun l ≤ l.length := by
  induction l with
  | nil => simp [wsRun]
  | cons b r ih =>
    simp only [wsRun, List.length_cons]
    split <;> omega

theorem notQuoteRun_all (l : List Nat) (h : ∀ b ∈ l, b ≠ 34) :
    notQuoteRun l = l.length := by
  induction l with
  | nil => simp [notQuoteRun]
  | cons b r ih =>
    have hb : b ≠ 34 := h b (by simp)
    simp only [notQuoteRun, List.length_cons, if_neg hb]
    rw [ih (fun x hx => h x (List.mem_cons_of_mem _ hx))]

theorem skipWhitespace_ge (src : List Nat) (c : Nat) : c ≤ skipWhitespace src c :=
  Nat.le_add_right _ _

theorem skipWhitespace_le (src : List Nat) (c : Nat) (h : c ≤ src.length) :
    skipWhitespace src c ≤ src.length := by
  have h2 := wsRun_le (src.drop c)
  simp only [List.length_drop] at h2
  simp only [skipWhitespace]
  omega

theorem scanString_ok {src : List Nat} {s : Nat} {t : Token} {c2 : Nat}
    (h : scanString src s = .ok (t, c2)) : (∃ i, t = .str i) ∧ s < c2 := by
  simp only [scanString] at h
  split at h
  · simp at h
  · split at h
    · simp only [LexResult.ok.injEq, Prod.mk.injEq] at h
      exact ⟨⟨_, h.1.symm⟩, by omega⟩
    · simp at h

theorem scanIdent_ok {src : List Nat} {c1 : Nat} {t : Token} {c2 : Nat}
    (h : scanIdent src c1 = .ok (t, c2)) : (∃ i, t = .identifier i) ∧ c1 ≤ c2 := by
  simp only [scanIdent] at h
  split at h
  · simp only [LexResult.ok.injEq, Prod.mk.injEq] at h
    exact ⟨⟨_, h.1.symm⟩, by omega⟩
  · simp at h

theorem scanNumber_ok {src : List Nat} {c1 : Nat} {t : Token} {c2 : Nat}
    (h : scanNumber src c1 = .ok (t, c2)) : (∃ n, t = .number n) ∧ c1 ≤ c2 := by
  simp only [scanNumber] at h
  split at h
  · simp only [LexResult.ok.injEq, Prod.mk.injEq] at h
    exact ⟨⟨_, h.1.symm⟩, by omega⟩
  · simp at h

theorem scanToken_ok {src : List Nat} {c : Nat} {t : Token} {c2 : Nat}
    (h : scanToken src c = .ok (t, c2)) :
    (src[c]? = none ∧ c2 = c ∧ t = .eof) ∨ (c < src.length ∧ c < c2) := by
  cases hsrc : src[c]? with
  | none =>
    simp only [scanToken, hsrc, LexResult.ok.injEq, Prod.mk.injEq] at h
    exact Or.inl ⟨rfl, h.2.symm, h.1.symm⟩
  | some b =>
    simp only [scanToken, hsrc] at h
    have hc : c < src.length := by
      rw [List.getElem?_eq_some] at hsrc; exact hsrc.1
    refine Or.inr ⟨hc, ?_⟩
    generalize hS : scanString src (c + 1) = rS at h
    generalize hN : scanNumber src (c + 1) = rN at h
    generalize hI : scanIdent src (c + 1) = rI at h
    repeat' split at h
    all_goals
      first
      | (simp only [LexResult.ok.injEq, Prod.mk.injEq] at h; omega)
      | (have h2 := (scanString_ok (hS.trans h)).2; omega)
      | (have h2 := (scanIdent_ok (hI.trans h)).2; omega)
      | (have h2 := (scanNumber_ok (hN.trans h)).2; omega)
      | simp at h

theorem scanToken_eof {src : List Nat} {c c2 : Nat}
    (h : scanToken src c = .ok (.eof, c2)) : src[c]? = none ∨ src[c]? = some 0 := by
  cases hsrc : src[c]? with
  | none => exact Or.inl rfl
  | some b =>
    simp only [scanToken, hsrc] at h
    right
    generalize hS : scanString src (c + 1) = rS at h
    generalize hN : scanNumber src (c + 1) = rN at h
    generalize hI : scanIdent src (c + 1) = rI at h
    repeat' split at h
    all_goals
      first
      | (simp only [LexResult.ok.injEq, Prod.mk.injEq] at h; simp_all)
      | (obtain ⟨⟨i, hi⟩, -⟩ := scanString_ok (hS.trans h); simp at hi)
      | (obtain ⟨⟨i, hi⟩, -⟩ := scanIdent_ok (hI.trans h); simp at hi)
      | (obtain ⟨⟨n, hn⟩, -⟩ := scanNumber_ok (hN.trans h); simp at hn)
      | simp at h

/-- On a successful scan, the token sequence is non-empty and its last token
is `EOF` (the loop pushes one when the final scanned token is not already
`EOF`).  This holds for every input, including ones containing NUL bytes. -/
theorem scanA_ok_last {src : List Nat} :
    ∀ fuel c acc ts, scanA src fuel c acc = .ok ts →
      ts ≠ [] ∧ ts.getLast? = some .eof := by
  intro fuel
  induction fuel with
  | zero => intro c acc ts h; simp [scanA] at h
  | succ f ih =>
    intro c acc ts h
    simp only [scanA] at h
    split at h
    · cases hst : scanToken src (skipWhitespace src c) with
      | ok p =>
        obtain ⟨t, c2⟩ := p
        rw [hst] at h
        exact ih c2 (acc ++ [t]) ts h
      | err e => rw [hst] at h; simp at h
      | panic => rw [hst] at h; simp at h
      | fuelOut => rw [hst] at h; simp at h
    · split at h
      · rename_i hlast
        simp only [LexResult.ok.injEq] at h
        subst h
        exact ⟨by intro he; subst he; simp at hlast, hlast⟩
      · simp only [LexResult.ok.injEq] at h
        subst h
        exact ⟨by simp, List.getLast?_concat _⟩

/-- For NUL-free input, a successful scan yields a token list of the shape
`pre ++ [EOF]` with no `EOF` inside `pre`: the only sources of an `EOF`
token are a NUL byte and the end of input. -/
theorem scanA_noNul {src : List Nat} (hsrc : ∀ b ∈ src, b ≠ 0) :
    ∀ fuel c acc ts, Token.eof ∉ acc → scanA src fuel c acc = .ok ts →
      ∃ pre, ts = pre ++ [Token.eof] ∧ Token.eof ∉ pre := by
  intro fuel
  induction fuel with
  | zero => intro c acc ts _ h; simp [scanA] at h
  | succ f ih =>
    intro c acc ts hacc h
    simp only [scanA] at h
    split at h
    · rename_i hc
      cases hst : scanToken src (skipWhitespace src c) with
      | ok p =>
        obtain ⟨t, c2⟩ := p
        rw [hst] at h
        by_cases ht : t = Token.eof
        · subst ht
          rcases scanToken_eof hst with hnone | hzero
          · -- the cursor is past the end: the recursive call finishes at once
            rcases scanToken_ok hst with ⟨-, hc2, -⟩ | ⟨hlt, -⟩
            · subst hc2
              have hge : ¬ skipWhitespace src c < src.length := by
                intro hlt2
                rw [List.getElem?_eq_none_iff] at hnone
                omega
              cases f with
              | zero => simp [scanA] at h
              | succ f2 =>
                simp only [scanA, if_neg hge] at h
                rw [List.getLast?_concat] at h
                simp only [reduceIte, LexResult.ok.injEq] at h
                exact ⟨acc, h.symm, hacc⟩
            · rw [List.getElem?_eq_none_iff] at hnone; omega
          · exact absurd (hsrc 0 (List.getElem?_mem hzero)) (by simp)
        · have hacc2 : Token.eof ∉ acc ++ [t] := by
            simp only [List.mem_append, List.mem_singleton]
            rintro (h1 | h2)
            · exact hacc h1
            · exact ht h2.symm
          exact ih c2 (acc ++ [t]) ts hacc2 h
      | err e => rw [hst] at h; simp at h
      | panic => rw [hst] at h; simp at h
      | fuelOut => rw [hst] at h; simp at h
    · split at h
      · rename_i hlast
        exact absurd (List.mem_of_mem_getLast? hlast) hacc
      · simp only [LexResult.ok.injEq] at h
        exact ⟨acc, h.symm, hacc⟩

/-- A byte that is not recognized punctuation, not a quote, not NUL, not
numeric and not alphabetic makes `scan_token` fail with
`UnrecognizedCharacter` carrying the byte and the advanced cursor. -/
theorem scanToken_unrecognized {src : List Nat} {c b : Nat}
    (hsrc : src[c]? = some b)
    (hp : isRecognizedPunct b = false) (hq : b ≠ 34)
    (hn : isRustNumeric b = false) (ha : isRustAlphabetic b = false) (h0 : b ≠ 0) :
    scanToken src c = .err (.unrecognizedCharacter b (c + 1)) := by
  simp only [scanToken, hsrc]
  split <;> simp_all [isRecognizedPunct]

/-- An opening quote that is never matched before the end of the input makes
`scan_token` fail with `UnclosedStringLiteral` whose `start` is the offset of
the quote and whose `end` is the length of the input (where scanning
stopped). -/
theorem scanToken_unclosed {src : List Nat} {c : Nat}
    (hsrc : src[c]? = some 34) (hnq : ∀ x ∈ src.drop (c + 1), x ≠ 34) :
    scanToken src c = .err (.unclosedStringLiteral c src.length) := by
  have hc : c < src.length := by rw [List.getElem?_eq_some] at hsrc; exact hsrc.1
  have hrun : notQuoteRun (src.drop (c + 1)) = src.length - (c + 1) := by
    rw [notQuoteRun_all _ hnq, List.length_drop]
  have he : c + 1 + (src.length - (c + 1)) = src.length := by omega
  simp only [scanToken, hsrc, scanString, hrun, he]
  simp

/-- Lifting `scanToken_unclosed` to the scanning loop: if whitespace-skipping
from the current position lands on such an unclosed quote, the whole scan
fails with that error. -/
theorem scanA_unclosed (src : List Nat) (f c : Nat) (acc : List Token)
    (hc : c < src.length) (hq : src[skipWhitespace src c]? = some 34)
    (hnq : ∀ x ∈ src.drop (skipWhitespace src c + 1), x ≠ 34) :
    scanA src (f + 1) c acc =
      .err (.unclosedStringLiteral (skipWhitespace src c) src.length) := by
  have hst := scanToken_unclosed hq hnq
  simp [scanA, hc, hst]

/-! ## Parser totality

For token sequences ending in `EOF`, every production either succeeds or
fails with a `ParsingError`, keeping its cursor in bounds: no `tokens[..]`
index is out of bounds and the supplied fuel is sufficient.  `Good` states
this for a production that may consume nothing, `GoodS` for one that
consumes at least one token on success. -/

theorem GoodS.toGood {α : Type} {r : PRes α} {c len : Nat} (h : GoodS r c len) :
    Good r c len := by
  cases r <;> simp_all [Good, GoodS]
  omega

theorem Good_strengthen {α : Type} {r : PRes α} {c c2 len : Nat}
    (h : Good r c2 len) (hlt : c < c2) : GoodS r c len := by
  cases r <;> simp_all [Good, GoodS] <;> omega

theorem GoodS_weaken {α : Type} {r : PRes α} {c c2 len : Nat}
    (h : GoodS r c2 len) (hle : c ≤ c2) : GoodS r c len := by
  cases r <;> simp_all [GoodS] <;> omega

theorem GoodS_bind {α β : Type} {r : PRes α} {f : α → Nat → PRes β} {c len : Nat}
    (hr : GoodS r c len)
    (hf : ∀ a c2, r = .ok a c2 → c < c2 → c2 < len → Good (f a c2) c2 len) :
    GoodS (r.bind f) c len := by
  cases r with
  | ok a c2 =>
    simp only [GoodS] at hr
    have h2 := hf a c2 rfl hr.1 hr.2
    simp only [PRes.bind]
    cases hres : f a c2 <;> rw [hres] at h2 <;> simp_all [Good, GoodS] <;> omega
  | err e c2 => exact hr
  | panic => exact hr.elim
  | fuelOut => exact hr.elim

theorem Good_bind {α β : Type} {r : PRes α} {f : α → Nat → PRes β} {c len : Nat}
    (hr : Good r c len)
    (hf : ∀ a c2, r = .ok a c2 → c ≤ c2 → c2 < len → Good (f a c2) c2 len) :
    Good (r.bind f) c len := by
  cases r with
  | ok a c2 =>
    simp only [Good] at hr
    have h2 := hf a c2 rfl hr.1 hr.2
    simp only [PRes.bind]
    cases hres : f a c2 <;> rw [hres] at h2 <;> simp_all [Good] <;> omega
  | err e c2 => exact hr
  | panic => exact hr.elim
  | fuelOut => exact hr.elim

/-- In an `EOF`-terminated token list, any token other than `EOF` has a
successor position inside the list. -/
theorem lastTok {tks : List Token} (hE : tks.getLast? = some .eof) {i : Nat} {t : Token}
    (h : tks[i]? = some t) (ht : t ≠ .eof) : i + 1 < tks.length := by
  have hi : i < tks.length := by rw [List.getElem?_eq_some] at h; exact h.1
  by_contra hcon
  have hieq : i = tks.length - 1 := by omega
  subst hieq
  rw [List.getLast?_eq_getElem?, h] at hE
  exact ht (by injection hE)

theorem consume_cases {tks : List Token} (hE : tks.getLast? = some .eof) {c : Nat}
    {t : Token} (hc : c < tks.length) (ht : t ≠ .eof) :
    (consume tks c t = .ok () (c + 1) ∧ tks[c]? = some t ∧ c + 1 < tks.length) ∨
    (∃ e, consume tks c t = .err e c) := by
  have hget : tks[c]? = some tks[c] := List.getElem?_eq_getElem hc
  by_cases heq : tks[c] = t
  · left
    refine ⟨?_, by rw [hget, heq], lastTok hE (by rw [hget, heq]) ht⟩
    simp [consume, hget, heq]
  · right
    exact ⟨.expectedToken c t tks[c], by simp [consume, hget, heq]⟩

theorem consume_goodS {tks : List Token} (hE : tks.getLast? = some .eof) {c : Nat}
    {t : Token} (hc : c < tks.length) (ht : t ≠ .eof) :
    GoodS (consume tks c t) c tks.length := by
  rcases consume_cases hE hc ht with ⟨h1, -, h3⟩ | ⟨e, h1⟩
  · rw [h1]; exact ⟨by omega, h3⟩
  · rw [h1]; exact ⟨le_refl c, hc⟩

theorem Good_weaken {α : Type} {r : PRes α} {c c2 len : Nat}
    (h : Good r c2 len) (hle : c ≤ c2) : Good r c len := by
  cases r <;> simp_all [Good] <;> omega

set_option maxHeartbeats 2000000 in
/-- The master totality lemma: on an `EOF`-terminated token list every
production at an in-bounds cursor is well-behaved. -/
theorem parserGood (tks : List Token) (hE : tks.getLast? = some .eof) :
    ∀ n c, c < tks.length → tks.length - c ≤ n → AllGood tks c := by
  intro n
  induction n with
  | zero => intro c hc hn; omega
  | succ n ih =>
    intro c hc hn
    have IH : ∀ c2, c < c2 → c2 < tks.length → AllGood tks c2 := fun c2 h1 h2 =>
      ih c2 h2 (by omega)
    -- `fn range`
    have hrange : ∀ F, 5 * (tks.length - c) + 2 ≤ F → GoodS (range tks c F) c tks.length := by
      intro F hF
      obtain ⟨G, rfl⟩ : ∃ G, F = G + 1 := ⟨F - 1, by omega⟩
      cases htok : tks[c]? with
      | none =>
        exfalso; rw [List.getElem?_eq_none_iff] at htok; omega
      | some t =>
        cases t
        case number start =>
          simp only [range, htok]
          have hc1 : c + 1 < tks.length := lastTok hE htok (by simp)
          rcases consume_cases hE (t := Token.doubleDot) hc1 (by simp) with
            ⟨hcons, htk1, hc2⟩ | ⟨e, hcons⟩
          · rw [hcons]
            simp only [PRes.bind]
            cases htok2 : tks[c + 1 + 1]? with
            | none => exfalso; rw [List.getElem?_eq_none_iff] at htok2; omega
            | some t2 =>
              cases t2
              case number e2 =>
                simp only [htok2]
                exact ⟨by omega, lastTok hE htok2 (by simp)⟩
              all_goals (simp only [htok2]; exact ⟨by omega, hc2⟩)
          · rw [hcons]
            simp only [PRes.bind]
            exact ⟨by omega, hc1⟩
        all_goals (simp only [range, htok]; exact ⟨le_refl c, hc⟩)
    -- `fn list`
    have hlist : ∀ F, 5 * (tks.length - c) + 3 ≤ F → GoodS (list tks c F) c tks.length := by
      intro F hF
      obtain ⟨G, rfl⟩ : ∃ G, F = G + 1 := ⟨F - 1, by omega⟩
      simp only [list]
      refine GoodS_bind (consume_goodS hE hc (by simp)) ?_
      intro _ c1 hcons h1 h2
      obtain ⟨-, -, ilit, ilr, -⟩ := IH c1 h1 h2
      have hlit := ilit G (by omega)
      cases hres : literal tks c1 G with
      | ok l c2 =>
        rw [hres] at hlit
        have hx1 : c1 < c2 := hlit.1
        have hx2 : c2 < tks.length := hlit.2
        refine Good_weaken ?_ (le_of_lt hx1)
        obtain ⟨-, -, -, ilr2, -⟩ := IH c2 (by omega) hx2
        refine Good_bind (ilr2 G (by omega)) ?_
        intro rest c3 hrest h3 h4
        refine Good_bind (consume_goodS hE h4 (by simp)).toGood ?_
        intro _ c4 hcons2 h5 h6
        exact ⟨le_refl c4, h6⟩
      | err e c2 =>
        rw [hres] at hlit
        have hx1 : c1 ≤ c2 := hlit.1
        have hx2 : c2 < tks.length := hlit.2
        refine Good_weaken ?_ hx1
        obtain ⟨-, -, -, ilr2, -⟩ := IH c2 (by omega) hx2
        refine Good_bind (ilr2 G (by omega)) ?_
        intro rest c3 hrest h3 h4
        refine Good_bind (consume_goodS hE h4 (by simp)).toGood ?_
        intro _ c4 hcons2 h5 h6
        exact ⟨le_refl c4, h6⟩
      | panic => rw [hres] at hlit; exact hlit.elim
      | fuelOut => rw [hres] at hlit; exact hlit.elim
    -- `fn literal`
    have hliteral : ∀ F, 5 * (tks.length - c) + 5 ≤ F →
        GoodS (literal tks c F) c tks.length := by
      intro F hF
      obtain ⟨G, rfl⟩ : ∃ G, F = G + 1 := ⟨F - 1, by omega⟩
      cases htok : tks[c]? with
      | none => exfalso; rw [List.getElem?_eq_none_iff] at htok; omega
      | some t =>
        cases t
        case number nval =>
          simp only [literal, htok]
          have hc1 : c + 1 < tks.length := lastTok hE htok (by simp)
          cases htok2 : tks[c + 1]? with
          | none => exfalso; rw [List.getElem?_eq_none_iff] at htok2; omega
          | some t2 =>
            cases t2
            case doubleDot =>
              simp only [htok2]
              exact hrange G (by omega)
            all_goals (simp only [htok2]; exact ⟨by omega, hc1⟩)
        case str s =>
          simp only [literal, htok]
          exact ⟨by omega, lastTok hE htok (by simp)⟩
        case leftBracket =>
          simp only [literal, htok]
          exact hlist G (by omega)
        all_goals (simp only [literal, htok]; exact ⟨le_refl c, hc⟩)
    -- the comma loop of `fn list`
    have hlistRest : ∀ F, 5 * (tks.length - c) + 7 ≤ F →
        Good (listRest tks c F) c tks.length := by
      intro F hF
      obtain ⟨G, rfl⟩ : ∃ G, F = G + 1 := ⟨F - 1, by omega⟩
      cases htok : tks[c]? with
      | none => exfalso; rw [List.getElem?_eq_none_iff] at htok; omega
      | some t =>
        cases t
        case comma =>
          simp only [listRest, htok]
          have hc1 : c + 1 < tks.length := lastTok hE htok (by simp)
          obtain ⟨-, -, ilit, -⟩ := IH (c + 1) (by omega) hc1
          refine (GoodS_bind (GoodS_weaken (ilit G (by omega)) (by omega)) ?_).toGood
          intro l c2 hres h1 h2
          obtain ⟨-, -, -, ilr2, -⟩ := IH c2 h1 h2
          refine Good_bind (ilr2 G (by omega)) ?_
          intro rest c3 hrest h3 h4
          exact ⟨le_refl c3, h4⟩
        all_goals (simp only [listRest, htok]; exact ⟨le_refl c, hc⟩)
    -- `fn attribute`
    have hattrib : ∀ F, 5 * (tks.length - c) + 4 ≤ F →
        GoodS (attrib tks c F) c tks.length := by
      intro F hF
      obtain ⟨G, rfl⟩ : ∃ G, F = G + 1 := ⟨F - 1, by omega⟩
      cases htok : tks[c]? with
      | none => exfalso; rw [List.getElem?_eq_none_iff] at htok; omega
      | some t =>
        cases t
        case identifier name =>
          simp only [attrib, htok]
          have hc1 : c + 1 < tks.length := lastTok hE htok (by simp)
          refine GoodS_weaken
            (GoodS_bind (consume_goodS hE hc1 (by simp)) ?_) (Nat.le_succ c)
          intro _ c2 hcons h1 h2
          cases htok2 : tks[c2]? with
          | none => exfalso; rw [List.getElem?_eq_none_iff] at htok2; omega
          | some t2 =>
            cases t2
            case number nval =>
              simp only [htok2]
              have hc2 : c2 + 1 < tks.length := lastTok hE htok2 (by simp)
              cases htok3 : tks[c2 + 1]? with
              | none => exfalso; rw [List.getElem?_eq_none_iff] at htok3; omega
              | some t3 =>
                cases t3
                case doubleDot =>
                  simp only [htok3]
                  obtain ⟨ir2, -⟩ := IH c2 (by omega) h2
                  refine Good_bind (ir2 G (by omega)).toGood ?_
                  intro v c3 hres h3 h4
                  exact ⟨le_refl c3, h4⟩
                all_goals (simp only [htok3]; exact ⟨by omega, hc2⟩)
            case str s =>
              simp only [htok2]
              exact ⟨by omega, lastTok hE htok2 (by simp)⟩
            case leftBracket =>
              simp only [htok2]
              obtain ⟨-, il2, -⟩ := IH c2 (by omega) h2
              refine Good_bind (il2 G (by omega)).toGood ?_
              intro v c3 hres h3 h4
              exact ⟨le_refl c3, h4⟩
            all_goals (simp only [htok2]; exact ⟨le_refl c2, h2⟩)
        all_goals (simp only [attrib, htok]; exact ⟨le_refl c, hc⟩)
    -- the comma loop of `fn attributes`
    have hattrRest : ∀ F, 5 * (tks.length - c) + 7 ≤ F →
        Good (attrRest tks c F) c tks.length := by
      intro F hF
      obtain ⟨G, rfl⟩ : ∃ G, F = G + 1 := ⟨F - 1, by omega⟩
      cases htok : tks[c]? with
      | none => exfalso; rw [List.getElem?_eq_none_iff] at htok; omega
      | some t =>
        cases t
        case comma =>
          simp only [attrRest, htok]
          have hc1 : c + 1 < tks.length := lastTok hE htok (by simp)
          obtain ⟨-, -, -, -, ia, -⟩ := IH (c + 1) (by omega) hc1
          refine (GoodS_bind (GoodS_weaken (ia G (by omega)) (by omega)) ?_).toGood
          intro a c2 hres h1 h2
          obtain ⟨-, -, -, -, -, iar2, -⟩ := IH c2 h1 h2
          refine Good_bind (iar2 G (by omega)) ?_
          intro rest c3 hrest h3 h4
          exact ⟨le_refl c3, h4⟩
        all_goals (simp only [attrRest, htok]; exact ⟨le_refl c, hc⟩)
    -- `fn attributes`
    have hattributes : ∀ F, 5 * (tks.length - c) + 7 ≤ F →
        GoodS (attributes tks c F) c tks.length := by
      intro F hF
      obtain ⟨G, rfl⟩ : ∃ G, F = G + 1 := ⟨F - 1, by omega⟩
      simp only [attributes]
      refine GoodS_bind (consume_goodS hE hc (by simp)) ?_
      intro _ c1 hcons h1 h2
      obtain ⟨-, -, -, -, ia, -⟩ := IH c1 h1 h2
      have hat := ia G (by omega)
      cases hres : attrib tks c1 G with
      | ok a c2 =>
        rw [hres] at hat
        have hx1 : c1 < c2 := hat.1
        have hx2 : c2 < tks.length := hat.2
        refine Good_weaken ?_ (le_of_lt hx1)
        obtain ⟨-, -, -, -, -, iar2, -⟩ := IH c2 (by omega) hx2
        refine Good_bind (iar2 G (by omega)) ?_
        intro rest c3 hrest h3 h4
        refine Good_bind (consume_goodS hE h4 (by simp)).toGood ?_
        intro _ c4 hcons2 h5 h6
        exact ⟨le_refl c4, h6⟩
      | err e c2 =>
        rw [hres] at hat
        have hx1 : c1 ≤ c2 := hat.1
        have hx2 : c2 < tks.length := hat.2
        refine Good_weaken ?_ hx1
        obtain ⟨-, -, -, -, -, iar2, -⟩ := IH c2 (by omega) hx2
        refine Good_bind (iar2 G (by omega)) ?_
        intro rest c3 hrest h3 h4
        refine Good_bind (consume_goodS hE h4 (by simp)).toGood ?_
        intro _ c4 hcons2 h5 h6
        exact ⟨le_refl c4, h6⟩
      | panic => rw [hres] at hat; exact hat.elim
      | fuelOut => rw [hres] at hat; exact hat.elim
    -- `fn tag`
    have htag : ∀ F, 5 * (tks.length - c) + 5 ≤ F → GoodS (tag tks c F) c tks.length := by
      intro F hF
      obtain ⟨G, rfl⟩ : ∃ G, F = G + 1 := ⟨F - 1, by omega⟩
      cases htok : tks[c]? with
      | none => exfalso; rw [List.getElem?_eq_none_iff] at htok; omega
      | some t =>
        cases t
        case identifier name =>
          simp only [tag, htok]
          have hc1 : c + 1 < tks.length := lastTok hE htok (by simp)
          have hchain : ∀ c2, c < c2 → c2 < tks.length →
              Good ((consume tks c2 .leftBrace).bind fun _ c3 =>
                (tagChildren tks c3 G).bind fun children c4 =>
                  (consume tks c4 .rightBrace).bind fun _ c5 =>
                    PRes.ok (Node.tag name [] children) c5) c2 tks.length ∧
              ∀ attrs : List Attribute,
              Good ((consume tks c2 .leftBrace).bind fun _ c3 =>
                (tagChildren tks c3 G).bind fun children c4 =>
                  (consume tks c4 .rightBrace).bind fun _ c5 =>
                    PRes.ok (Node.tag name attrs children) c5) c2 tks.length := by
            intro c2 hlt2 hlt3
            constructor
            case' right => intro attrs
            all_goals
              refine (GoodS_bind (consume_goodS hE hlt3 (by simp)) ?_).toGood
              intro _ c3 hcons h3 h4
              obtain ⟨-, -, -, -, -, -, -, -, -, itc, -⟩ := IH c3 (by omega) h4
              refine Good_bind (itc G (by omega)) ?_
              intro children c4 hch h5 h6
              refine Good_bind (consume_goodS hE h6 (by simp)).toGood ?_
              intro _ c5 hcons2 h7 h8
              exact ⟨le_refl c5, h8⟩
          cases htok2 : tks[c + 1]? with
          | none => exfalso; rw [List.getElem?_eq_none_iff] at htok2; omega
          | some t2 =>
            cases t2
            case leftParen =>
              simp only [htok2]
              obtain ⟨-, -, -, -, -, -, iat, -⟩ := IH (c + 1) (by omega) hc1
              refine GoodS_weaken
                (GoodS_bind (iat G (by omega)) ?_) (Nat.le_succ c)
              intro attrs c2 hres h1 h2
              exact ((hchain c2 (by omega) h2).2 attrs)
            all_goals
              (simp only [htok2]
               exact Good_strengthen ((hchain (c + 1) (by omega) hc1).1) (by omega))
        all_goals (simp only [tag, htok]; exact ⟨le_refl c, hc⟩)
    -- `fn node`
    have hnode : ∀ F, 5 * (tks.length - c) + 6 ≤ F → GoodS (node tks c F) c tks.length := by
      intro F hF
      obtain ⟨G, rfl⟩ : ∃ G, F = G + 1 := ⟨F - 1, by omega⟩
      cases htok : tks[c]? with
      | none => exfalso; rw [List.getElem?_eq_none_iff] at htok; omega
      | some t =>
        cases t
        case str s =>
          simp only [node, htok]
          exact ⟨by omega, lastTok hE htok (by simp)⟩
        case identifier name =>
          simp only [node, htok]
          exact htag G (by omega)
        all_goals (simp only [node, htok]; exact ⟨le_refl c, hc⟩)
    -- the children loop of `fn tag`
    have htagChildren : ∀ F, 5 * (tks.length - c) + 7 ≤ F →
        Good (tagChildren tks c F) c tks.length := by
      intro F hF
      obtain ⟨G, rfl⟩ : ∃ G, F = G + 1 := ⟨F - 1, by omega⟩
      cases htok : tks[c]? with
      | none => exfalso; rw [List.getElem?_eq_none_iff] at htok; omega
      | some t =>
        cases t
        case rightBrace =>
          simp only [tagChildren, htok]
          exact ⟨le_refl c, hc⟩
        all_goals
          simp only [tagChildren, htok]
          refine (GoodS_bind (hnode G (by omega)) ?_).toGood
          intro nd c2 hres h1 h2
          obtain ⟨-, -, -, -, -, -, -, -, -, itc, -⟩ := IH c2 h1 h2
          refine Good_bind (itc G (by omega)) ?_
          intro ns c3 hns h3 h4
          exact ⟨le_refl c3, h4⟩
    -- the document loop of `fn parse`
    have hparseLoop : ∀ F, 5 * (tks.length - c) + 7 ≤ F →
        Good (parseLoop tks c F) c tks.length := by
      intro F hF
      obtain ⟨G, rfl⟩ : ∃ G, F = G + 1 := ⟨F - 1, by omega⟩
      cases htok : tks[c]? with
      | none => exfalso; rw [List.getElem?_eq_none_iff] at htok; omega
      | some t =>
        cases t
        case eof =>
          simp only [parseLoop, htok]
          exact ⟨le_refl c, hc⟩
        all_goals
          simp only [parseLoop, htok]
          refine (GoodS_bind (hnode G (by omega)) ?_).toGood
          intro nd c2 hres h1 h2
          obtain ⟨-, -, -, -, -, -, -, -, -, -, ipl⟩ := IH c2 h1 h2
          refine Good_bind (ipl G (by omega)) ?_
          intro ns c3 hns h3 h4
          exact ⟨le_refl c3, h4⟩
    exact ⟨hrange, hlist, hliteral, hlistRest, hattrib, hattrRest, hattributes,
      htag, hnode, htagChildren, hparseLoop⟩

/-! ## Lemmas about the `Display` rendering of `Literal` -/

theorem noEmptyListAll_mem {ls : List Literal} (h : noEmptyListAll ls = true)
    {l : Literal} (hm : l ∈ ls) : noEmptyList l = true := by
  induction ls with
  | nil => cases hm
  | cons x xs ih =>
    simp only [noEmptyListAll, Bool.and_eq_true] at h
    rcases List.mem_cons.mp hm with rfl | hm2
    · exact h.1
    · exact ih h.2 hm2

theorem litDisplayJoin_eq (xs : List Literal) : ∀ x,
    (∀ l ∈ x :: xs, litDisplay l = some (refDisplay l)) →
    litDisplayJoin x xs = some (refJoin (x :: xs)) := by
  induction xs with
  | nil =>
    intro x h
    simp only [litDisplayJoin, refJoin]
    exact h x (by simp)
  | cons y ys ih =>
    intro x h
    have hx := h x (by simp)
    have hrest := ih y (fun l hl => h l (by simp only [List.mem_cons] at hl ⊢; tauto))
    simp only [litDisplayJoin, hx, hrest, refJoin]
    rfl

/-- Whenever no `List` inside is empty, the `Display` rendering succeeds and
produces exactly the reference format. -/
theorem litDisplay_eq_ref : ∀ l : Literal, noEmptyList l = true →
    litDisplay l = some (refDisplay l) := by
  have main : ∀ n, ∀ l : Literal, sizeOf l ≤ n → noEmptyList l = true →
      litDisplay l = some (refDisplay l) := by
    intro n
    induction n with
    | zero =>
      intro l hsz hne
      exfalso
      cases l <;> simp at hsz
    | succ n ih =>
      intro l hsz hne
      cases l with
      | number m => simp [litDisplay, refDisplay]
      | str s => simp [litDisplay, refDisplay]
      | range a b => cases b <;> simp [litDisplay, refDisplay]
      | list ls =>
        cases ls with
        | nil => simp [noEmptyList] at hne
        | cons x xs =>
          simp only [noEmptyList, Bool.and_eq_true] at hne
          have hall : ∀ l2 ∈ x :: xs, litDisplay l2 = some (refDisplay l2) := by
            intro l2 hm
            have h1 : sizeOf l2 < sizeOf (x :: xs) := List.sizeOf_lt_of_mem hm
            have h2 : 1 + sizeOf (x :: xs) ≤ n + 1 := by simpa using hsz
            exact ih l2 (by omega) (noEmptyListAll_mem hne.2 hm)
          have hjoin := litDisplayJoin_eq xs x hall
          simp [litDisplay, hjoin, refDisplay]
  exact fun l => main (sizeOf l) l (le_refl _)

/-! ## The claims -/

/-- C1 (counterexample): on the spec's own example `div { "x" ` — a tag body
reaching end of input before the closing brace — parsing fails with
`UnexpectedToken` at token index 3 (the `EOF`), not with an `ExpectedToken`
error naming `}`. -/
theorem C1_counterexample :
    parse dInput = .err (.unexpectedToken 3) ∧
    ∀ i expected got, parse dInput = .err (.expectedToken i expected got) → False := by
  refine ⟨rfl, ?_⟩
  intro i expected got h
  rw [show parse dInput = .err (.unexpectedToken 3) from rfl] at h
  simp at h

/-- C1 (amended): when a tag body reaches the end of input before the closing
brace, parsing fails — but with `UnexpectedToken` at the position of the
`EOF` token, because the children loop calls `node` there and `node` rejects
`EOF`; the `consume('}')` that would raise `ExpectedToken` is never reached.
In particular `div { "x" ` fails with `UnexpectedToken` at token index 3. -/
theorem C1_amended :
    (∀ (tks : List Token) (c f : Nat), tks[c]? = some .eof →
      tagChildren tks c (f + 2) = .err (.unexpectedToken c) c) ∧
    parse dInput = .err (.unexpectedToken 3) := by
  refine ⟨?_, rfl⟩
  intro tks c f htok
  simp [tagChildren, node, htok, PRes.bind]

/-- C1 (witness): the general part of `C1_amended` at the concrete token
list `[EOF]`. -/
theorem C1_witness : tagChildren [Token.eof] 0 2 = .err (.unexpectedToken 0) 0 :=
  C1_amended.1 [Token.eof] 0 0 rfl

/-- C2 (counterexample): `div { div {"item1"} div {"item2"} }` parses to the
expected AST, but transforming it does not yield
`<div><div>item1</div><div>item2</div></div>` — it panics (`none`), because
`transform_node` only supports the tag `code-block`. -/
theorem C2_counterexample :
    parse divSrc = .ok divAst ∧ transformList divAst = none := ⟨rfl, rfl⟩

/-- C2 (amended): for every `TagNode` whose name is not `code-block`, the
HTML transformer does not render `<name>…</name>`: it panics
(`panic!("Only code-block is supported for now")`, modelled as `none`),
regardless of attributes and children.  The generic-element rendering the
spec describes is not implemented by the transformer. -/
theorem C2_amended :
    ∀ (name : List Nat) (attrs : List Attribute) (children : List Node),
      name ≠ codeBlockName → transformNode (.tag name attrs children) = none := by
  intro name attrs children h
  simp [transformNode, h]

/-- C2 (witness): `C2_amended` at a concrete `div` tag. -/
theorem C2_witness : transformNode (.tag [100, 105, 118] [] []) = none :=
  C2_amended [100, 105, 118] [] [] (by decide)

/-- C3 (counterexample): on the input consisting of a NUL byte followed by
`a`, `scan_tokens` succeeds with `[EOF, Identifier "a", EOF]`: the `EOF`
token occurs twice and the first occurrence is not trailing, because the
lexer maps a NUL byte in the middle of the input to an `EOF` token. -/
theorem C3_counterexample :
    scanTokens [0, 97] = .ok [.eof, .identifier [97], .eof] ∧
    ([Token.eof, Token.identifier [97], Token.eof].count .eof = 2) :=
  ⟨rfl, by decide⟩

/-- C3 (amended): for every input containing no NUL byte, a successful
`scan_tokens` returns a non-empty token sequence that ends with `EOF` and
contains exactly one `EOF` token (in the trailing position).  An input
containing a NUL byte can produce additional, non-trailing `EOF` tokens. -/
theorem C3_amended :
    ∀ (src : List Nat) (ts : List Token), (∀ b ∈ src, b ≠ 0) →
      scanTokens src = .ok ts →
      ts ≠ [] ∧ ts.getLast? = some .eof ∧ ts.count .eof = 1 := by
  intro src ts h0 hscan
  obtain ⟨pre, rfl, hpre⟩ := scanA_noNul h0 (src.length + 1) 0 [] ts (by simp) hscan
  refine ⟨by simp, List.getLast?_concat _, ?_⟩
  rw [List.count_append, List.count_eq_zero.mpr hpre]
  simp

/-- C3 (witness): `C3_amended` at the concrete input `a`. -/
theorem C3_witness :
    ([Token.identifier [97], Token.eof] : List Token) ≠ [] ∧
    ([Token.identifier [97], Token.eof] : List Token).getLast? = some .eof ∧
    ([Token.identifier [97], Token.eof] : List Token).count .eof = 1 :=
  C3_amended [97] [Token.identifier [97], Token.eof] (by decide) rfl

/-- C4 (counterexample): the NUL byte is not recognized punctuation, not a
quote, not whitespace, not numeric and not alphabetic, yet `scan_tokens`
does not fail with `UnrecognizedCharacter` on it — it succeeds, lexing the
NUL byte as an `EOF` token. -/
theorem C4_counterexample : scanTokens [0] = .ok [.eof] := rfl

/-- C4 (amended): every input byte other than NUL that is not one of the
recognized punctuation bytes `( ) [ ] { } , : .`, not a double quote, not
whitespace, not numeric and not alphabetic makes scanning fail with
`UnrecognizedCharacter` carrying that byte and the scanner position just
past it (offset + 1); the NUL byte instead lexes as an `EOF` token. -/
theorem C4_amended :
    (∀ (src : List Nat) (c b : Nat), src[c]? = some b → b < 256 →
      isRecognizedPunct b = false → b ≠ 34 → isRustWhitespace b = false →
      isRustNumeric b = false → isRustAlphabetic b = false → b ≠ 0 →
      scanToken src c = .err (.unrecognizedCharacter b (c + 1))) ∧
    (∀ b : Nat, b < 256 →
      isRecognizedPunct b = false → b ≠ 34 → isRustWhitespace b = false →
      isRustNumeric b = false → isRustAlphabetic b = false → b ≠ 0 →
      scanTokens [b] = .err (.unrecognizedCharacter b 1)) := by
  constructor
  · intro src c b hsrc _ hp hq hw hn ha h0
    exact scanToken_unrecognized hsrc hp hq hn ha h0
  · intro b _ hp hq hw hn ha h0
    have hst := scanToken_unrecognized
      (show ([b] : List Nat)[0]? = some b by simp) hp hq hn ha h0
    have hskip : skipWhitespace [b] 0 = 0 := by simp [skipWhitespace, wsRun, hw]
    simp [scanTokens, scanA, hskip, hst]

/-- C4 (witness): `C4_amended` at the concrete byte `@` (64). -/
theorem C4_witness :
    scanToken [64] 0 = .err (.unrecognizedCharacter 64 1) ∧
    scanTokens [64] = .err (.unrecognizedCharacter 64 1) :=
  ⟨C4_amended.1 [64] 0 64 rfl (by decide) (by decide) (by decide) (by decide)
      (by decide) (by decide) (by decide),
   C4_amended.2 64 (by decide) (by decide) (by decide) (by decide) (by decide)
      (by decide) (by decide)⟩

/-- C5 (counterexample): `tag(name:) {}` parses successfully — to a `tag`
node with no attributes — even though its attribute list contains an
erroneous attribute (`name:` with no value).  The failure of the optional
first attribute is silently discarded together with the tokens it consumed. -/
theorem C5_counterexample : parse tagNameSrc = .ok [.tag [116, 97, 103] [] []] := rfl

/-- C5 (amended): the first error aborts the whole parse except at the two
optional-first-element positions (the first attribute of an attribute list
and the first element of a literal list), whose failure is discarded while
keeping the cursor movement it performed: `tag(name:) {}` parses
successfully to a tag with zero attributes, while the same broken attribute
after a comma, as in `tag(a: 1, name:) {}`, aborts the parse with its
error. -/
theorem C5_amended :
    parse tagNameSrc = .ok [.tag [116, 97, 103] [] []] ∧
    parse tagA1Src = .err (.unexpectedToken 8) := ⟨rfl, rfl⟩

/-- C6 (counterexample): rendering the empty `List` literal is not defined:
the `Display` loop bound `ls.len() - 1` underflows on `usize`, a panic
(modelled as `none`) rather than the reference format `[]`. -/
theorem C6_counterexample : litDisplay (.list []) = none := by
  simp [litDisplay]

/-- C6 (amended): for every `Literal` in which no `List` (at any depth) is
empty, the diagnostic rendering is defined and equals the reference format —
`Number` as its decimal value, `String` as itself, `Range` as `start..end`
or `start..`, and a non-empty `List` as `[` + comma-joined elements + `]`;
rendering a `Literal` containing an empty `List` panics. -/
theorem C6_amended :
    ∀ l : Literal, noEmptyList l = true → litDisplay l = some (refDisplay l) :=
  litDisplay_eq_ref

/-- C6 (witness): `C6_amended` at the concrete literal `[12,3..,hi]`. -/
theorem C6_witness :
    noEmptyList (Literal.list [.number 12, .range 3 none, .str [104, 105]]) = true ∧
    litDisplay (Literal.list [.number 12, .range 3 none, .str [104, 105]]) =
      some (refDisplay (Literal.list [.number 12, .range 3 none, .str [104, 105]])) := by
  have hne : noEmptyList
      (Literal.list [.number 12, .range 3 none, .str [104, 105]]) = true := by
    simp [noEmptyList, noEmptyListAll]
  exact ⟨hne, C6_amended _ hne⟩

/-- C7: whenever scanning reaches an opening double quote (after whitespace
skipping) that is never closed before the end of input, the scan fails with
`UnclosedStringLiteral` whose `start` is the byte offset of the opening
quote and whose `end` is the input length, where scanning stopped; in
particular `"unclosed string` fails with `UnclosedStringLiteral{start: 0,
end: 16}`. -/
theorem C7_theorem :
    (∀ (src : List Nat) (f c : Nat) (acc : List Token), c < src.length →
      src[skipWhitespace src c]? = some 34 →
      (∀ x ∈ src.drop (skipWhitespace src c + 1), x ≠ 34) →
      scanA src (f + 1) c acc =
        .err (.unclosedStringLiteral (skipWhitespace src c) src.length)) ∧
    scanTokens unclosedSrc = .err (.unclosedStringLiteral 0 16) :=
  ⟨fun src f c acc h1 h2 h3 => scanA_unclosed src f c acc h1 h2 h3, rfl⟩

/-- C7 (witness): `C7_theorem` at the one-byte input `"`. -/
theorem C7_witness : scanA [34] 1 0 [] = .err (.unclosedStringLiteral 0 1) :=
  C7_theorem.1 [34] 0 0 [] (by decide) (by decide) (by decide)

/-- C8: parsing a literal that begins with a `Number` uses exactly one token
of lookahead: `1..10` lexes and its literal parses to `Range{1, Some(10)}`,
`1..` to `Range{1, None}`, and whenever the token after the `Number` is not
`DoubleDot` the literal is the bare `Number`, consuming exactly one token. -/
theorem C8_theorem :
    scanTokens [49, 46, 46, 49, 48] = .ok [.number 1, .doubleDot, .number 10, .eof] ∧
    (∀ f, literal [.number 1, .doubleDot, .number 10, .eof] 0 (f + 2) =
      .ok (.range 1 (some 10)) 3) ∧
    scanTokens [49, 46, 46] = .ok [.number 1, .doubleDot, .eof] ∧
    (∀ f, literal [.number 1, .doubleDot, .eof] 0 (f + 2) = .ok (.range 1 none) 2) ∧
    (∀ (tks : List Token) (c n : Nat) (t : Token) (f : Nat),
      tks[c]? = some (.number n) → tks[c + 1]? = some t → t ≠ .doubleDot →
      literal tks c (f + 1) = .ok (.number n) (c + 1)) := by
  refine ⟨rfl, ?_, rfl, ?_, ?_⟩
  · intro f
    simp [literal, range, consume, PRes.bind]
  · intro f
    simp [literal, range, consume, PRes.bind]
  · intro tks c n t f h1 h2 ht
    cases t <;> simp_all [literal]

/-- C8 (witness): the lookahead part of `C8_theorem` at `[Number 7, EOF]`. -/
theorem C8_witness : literal [Token.number 7, Token.eof] 0 1 = .ok (.number 7) 1 :=
  C8_theorem.2.2.2.2 [Token.number 7, Token.eof] 0 7 Token.eof 0 rfl rfl (by simp)

/-- C9: a `TagNode` named exactly `code-block` transforms its children in
order as normal, dedents the concatenated text (removing the common leading
whitespace) and wraps it as `<pre><code>…</code></pre>`; a `StringNode`
child contributes its text verbatim.  Concretely, a code block containing
`"\n    a\n    b\n"` renders as `<pre><code>\na\nb\n</code></pre>`. -/
theorem C9_theorem :
    (∀ (attrs : List Attribute) (children : List Node),
      transformNode (.tag codeBlockName attrs children) =
        (transformList children).map
          (fun inner => preCodeOpen ++ dedent inner ++ preCodeClose)) ∧
    (∀ s, transformNode (.str s) = some s) ∧
    transformList [.tag codeBlockName []
        [.str [10, 32, 32, 32, 32, 97, 10, 32, 32, 32, 32, 98, 10]]] =
      some [60, 112, 114, 101, 62, 60, 99, 111, 100, 101, 62, 10, 97, 10, 98, 10,
        60, 47, 99, 111, 100, 101, 62, 60, 47, 112, 114, 101, 62] := by
  refine ⟨?_, fun s => rfl, rfl⟩
  intro attrs children
  simp [transformNode]

/-- C10: for every token sequence produced by a successful `scan_tokens`,
running the parser is total: it returns `ok` or `err`, never hitting an
out-of-bounds token access (`panic`) and never exhausting its fuel
(`fuelOut`) — every token access is in bounds because the cursor never
passes the trailing `EOF`. -/
theorem C10_theorem :
    ∀ (src : List Nat) (tks : List Token), scanTokens src = .ok tks →
      parseTokens tks ≠ .panic ∧ parseTokens tks ≠ .fuelOut := by
  intro src tks hscan
  obtain ⟨hne, hlast⟩ := scanA_ok_last (src.length + 1) 0 [] tks hscan
  have hlen : 0 < tks.length := List.length_pos.mpr hne
  have hg := ((parserGood tks hlast tks.length 0 hlen (by omega)).2.2.2.2.2.2.2.2.2.2)
    (5 * tks.length + 8) (by omega)
  unfold parseTokens
  cases hres : parseLoop tks 0 (5 * tks.length + 8) <;> rw [hres] at hg <;>
    simp_all [Good]

/-- C10 (witness): `C10_theorem` on the scan of `p {"a"}`. -/
theorem C10_witness :
    parseTokens [Token.identifier [112], .leftBrace, .str [97], .rightBrace, .eof]
      ≠ .panic ∧
    parseTokens [Token.identifier [112], .leftBrace, .str [97], .rightBrace, .eof]
      ≠ .fuelOut :=
  C10_theorem [112, 32, 123, 34, 97, 34, 125]
    [Token.identifier [112], .leftBrace, .str [97], .rightBrace, .eof] rfl

end Markup
